import Mathlib

/-!
Shallow embedding of the optical-flow reference implementation
(`rothej/optical-flow-fpga`, `python/` directory) and proofs of the
specification's claims about it.

Images (numpy 2-D float arrays) are modelled as lists of rows of
rationals: exact arithmetic stands in for IEEE floats, as usual for a
shallow embedding.  External library primitives whose pointwise values
no claim depends on (`scipy.signal.convolve2d`, `scipy.ndimage.gaussian_filter`,
and the transcendental `sqrt`/`arccos`/`rad2deg` used by the angular-error
metric) are passed as function parameters; everything else - windowed
least-squares solve, bilinear resampling (`map_coordinates`, order 1,
constant mode, cval 0), pyramid construction, warping, upsampling, the
refinement loop and the metric guard - is translated directly.
-/

namespace OptFlow

/-- A 2-D array of rationals: a list of rows (numpy float array model). -/
abbrev Img := List (List ℚ)

/-- Number of rows (`arr.shape[0]`). -/
def heightOf (a : Img) : ℕ := a.length

/-- Number of columns (`arr.shape[1]`), read off the first row. -/
def widthOf (a : Img) : ℕ := (a.headD []).length

/-- `a` is a rectangular `h × w` array. -/
def Rect (a : Img) (h w : ℕ) : Prop :=
  a.length = h ∧ ∀ r ∈ a, r.length = w

/-- Pixel read `a[y, x]`, defaulting to `0` out of range. -/
def getPix (a : Img) (y x : ℕ) : ℚ := (a.getD y []).getD x 0

/-- Build an `h × w` array from a pixel function (row-major). -/
def genImg (h w : ℕ) (f : ℕ → ℕ → ℚ) : Img :=
  (List.range h).map fun y => (List.range w).map (f y)

/-- 2-D slice `a[y0:y1, x0:x1]` (numpy basic slicing: clamps, never errors). -/
def slice2 (a : Img) (y0 y1 x0 x1 : ℕ) : Img :=
  ((a.drop y0).take (y1 - y0)).map fun r => (r.drop x0).take (x1 - x0)

/-- Elementwise product of two same-shape arrays (`win_a * win_b`). -/
def mul2 (a b : Img) : Img :=
  List.zipWith (List.zipWith (· * ·)) a b

/-- `np.sum` over a 2-D array. -/
def sum2 (a : Img) : ℚ := (a.map List.sum).sum

/-- Total number of elements (`arr.size`). -/
def sizeOf2 (a : Img) : ℕ := (a.map List.length).sum

/-- `np.mean(np.abs(a))`. -/
def meanAbs (a : Img) : ℚ :=
  (a.map (fun r => (r.map (fun q => |q|)).sum)).sum / (sizeOf2 a)

/-- The per-pixel windowed least-squares solve performed at an interior
pixel `(y, x)` by `lucas_kanade_from_gradients`: window sums, structure
tensor, determinant test and Cramer's rule. -/
def solvePix (Ix Iy It : Img) (window_size y x : ℕ) : ℚ × ℚ :=
  let half_win := window_size / 2
  let win_Ix := slice2 Ix (y - half_win) (y + half_win + 1) (x - half_win) (x + half_win + 1)
  let win_Iy := slice2 Iy (y - half_win) (y + half_win + 1) (x - half_win) (x + half_win + 1)
  let win_It := slice2 It (y - half_win) (y + half_win + 1) (x - half_win) (x + half_win + 1)
  let sum_Ix2 := sum2 (mul2 win_Ix win_Ix)
  let sum_Iy2 := sum2 (mul2 win_Iy win_Iy)
  let sum_IxIy := sum2 (mul2 win_Ix win_Iy)
  let sum_IxIt := sum2 (mul2 win_Ix win_It)
  let sum_IyIt := sum2 (mul2 win_Iy win_It)
  let b0 := -sum_IxIt
  let b1 := -sum_IyIt
  let det := sum_Ix2 * sum_Iy2 - sum_IxIy * sum_IxIy
  if 1 / 10000 < |det| then
    ((sum_Iy2 * b0 - sum_IxIy * b1) / det, (sum_Ix2 * b1 - sum_IxIy * b0) / det)
  else
    (0, 0)

/-- `lucas_kanade_from_gradients(Ix, Iy, It, window_size)`
(`python/lucas_kanade_core.py`): zero-initialised `(u, v)`, with the
windowed solve written at each pixel whose window fits in the frame.
The Python double loop writes each interior pixel exactly once, so it is
translated as a pointwise array build. -/
def lucas_kanade_from_gradients (Ix Iy It : Img) (window_size : ℕ) : Img × Img :=
  let height := heightOf Ix
  let width := widthOf Ix
  let half_win := window_size / 2
  (genImg height width fun y x =>
     if half_win ≤ y ∧ y < height - half_win ∧ half_win ≤ x ∧ x < width - half_win then
       (solvePix Ix Iy It window_size y x).1
     else 0,
   genImg height width fun y x =>
     if half_win ≤ y ∧ y < height - half_win ∧ half_win ≤ x ∧ x < width - half_win then
       (solvePix Ix Iy It window_size y x).2
     else 0)

/-- Elementwise unary map (numpy scalar broadcasting, e.g. `arr / 8.0`). -/
def smap (f : ℚ → ℚ) (a : Img) : Img := a.map (List.map f)

/-- numpy broadcasting of one axis: sizes must be equal, or one of them `1`. -/
def bcastDim (a b : ℕ) : Option ℕ :=
  if a = b then some a else if a = 1 then some b else if b = 1 then some a else none

/-- Elementwise binary numpy operation on two 2-D arrays, with numpy
broadcasting: succeeds iff the shapes are broadcast-compatible per axis;
an axis of size 1 is stretched by repeating index 0. -/
def ewise (f : ℚ → ℚ → ℚ) (a b : Img) : Option Img :=
  match bcastDim (heightOf a) (heightOf b), bcastDim (widthOf a) (widthOf b) with
  | some h, some w =>
    some (genImg h w fun y x =>
      f (getPix a (if heightOf a = 1 then 0 else y) (if widthOf a = 1 then 0 else x))
        (getPix b (if heightOf b = 1 then 0 else y) (if widthOf b = 1 then 0 else x)))
  | _, _ => none

/-- Error taxonomy of the spec that is observable in this core: numpy raises
on broadcast-incompatible operand shapes. -/
inductive FlowError where
  | shapeMismatch
deriving DecidableEq

/-- `compute_gradients(frame_prev, frame_curr)` (`python/lucas_kanade_core.py`).
`scipy.signal.convolve2d(img, kernel, mode="same", boundary="symm")` is an
external library call modelled as the parameter `conv` (its pointwise values
are irrelevant to every claim); the elementwise numpy arithmetic, including
its broadcasting/raising behaviour, is translated directly. -/
def compute_gradients (conv : Img → Img → Img) (frame_prev frame_curr : Img) :
    Except FlowError (Img × Img × Img) :=
  let sobel_x := smap (fun q => q / 8) [[-1, 0, 1], [-2, 0, 2], [-1, 0, 1]]
  let sobel_y := smap (fun q => q / 8) [[-1, -2, -1], [0, 0, 0], [1, 2, 1]]
  match ewise (· + ·) frame_prev frame_curr with
  | none => .error .shapeMismatch
  | some s =>
    let frame_avg := smap (fun q => q / 2) s
    let Ix := conv frame_avg sobel_x
    let Iy := conv frame_avg sobel_y
    match ewise (fun p q => p - q) frame_prev frame_curr with
    | none => .error .shapeMismatch
    | some It => .ok (Ix, Iy, It)

/-- `lucas_kanade_single_scale(frame_prev, frame_curr, window_size)`
(`python/lucas_kanade_core.py`): gradients, then the windowed solve. -/
def lucas_kanade_single_scale (conv : Img → Img → Img)
    (frame_prev frame_curr : Img) (window_size : ℕ) :
    Except FlowError (Img × Img) :=
  match compute_gradients conv frame_prev frame_curr with
  | .error e => .error e
  | .ok (Ix, Iy, It) => .ok (lucas_kanade_from_gradients Ix Iy It window_size)

namespace reference

/-- `compute_gradients` of `python/lucas_kanade_reference.py` (a verbatim
duplicate of the one in `lucas_kanade_core.py`). -/
def compute_gradients (conv : Img → Img → Img) (frame_prev frame_curr : Img) :
    Except FlowError (Img × Img × Img) :=
  let sobel_x := smap (fun q => q / 8) [[-1, 0, 1], [-2, 0, 2], [-1, 0, 1]]
  let sobel_y := smap (fun q => q / 8) [[-1, -2, -1], [0, 0, 0], [1, 2, 1]]
  match ewise (· + ·) frame_prev frame_curr with
  | none => .error .shapeMismatch
  | some s =>
    let frame_avg := smap (fun q => q / 2) s
    let Ix := conv frame_avg sobel_x
    let Iy := conv frame_avg sobel_y
    match ewise (fun p q => p - q) frame_prev frame_curr with
    | none => .error .shapeMismatch
    | some It => .ok (Ix, Iy, It)

/-- `lucas_kanade_window(Ix, Iy, It, window_size)` of
`python/lucas_kanade_reference.py` (a verbatim duplicate of
`lucas_kanade_from_gradients` in `lucas_kanade_core.py`). -/
def lucas_kanade_window (Ix Iy It : Img) (window_size : ℕ) : Img × Img :=
  let height := heightOf Ix
  let width := widthOf Ix
  let half_win := window_size / 2
  (genImg height width fun y x =>
     if half_win ≤ y ∧ y < height - half_win ∧ half_win ≤ x ∧ x < width - half_win then
       (solvePix Ix Iy It window_size y x).1
     else 0,
   genImg height width fun y x =>
     if half_win ≤ y ∧ y < height - half_win ∧ half_win ≤ x ∧ x < width - half_win then
       (solvePix Ix Iy It window_size y x).2
     else 0)

end reference

/-- Pixel read at signed indices, `0` outside the array
(`map_coordinates` constant mode with `cval=0`). -/
def getPixZ (a : Img) (y x : ℤ) : ℚ :=
  if 0 ≤ y ∧ 0 ≤ x then getPix a y.toNat x.toNat else 0

/-- `scipy.ndimage.map_coordinates(a, [[ty],[tx]], order=1, mode="constant")`:
bilinear interpolation at a real coordinate, out-of-range neighbours
reading the fill value `0`. -/
def bilin (a : Img) (ty tx : ℚ) : ℚ :=
  let y0 : ℤ := ⌊ty⌋
  let x0 : ℤ := ⌊tx⌋
  let fy := ty - y0
  let fx := tx - x0
  (1 - fy) * ((1 - fx) * getPixZ a y0 x0 + fx * getPixZ a y0 (x0 + 1)) +
    fy * ((1 - fx) * getPixZ a (y0 + 1) x0 + fx * getPixZ a (y0 + 1) (x0 + 1))

/-- `np.linspace(a, b, n)`: `n` evenly spaced samples from `a` to `b`
inclusive (`[a]` when `n = 1`, `[]` when `n = 0`). -/
def linspace (a b : ℚ) (n : ℕ) : List ℚ :=
  (List.range n).map fun (k : ℕ) => a + (b - a) * (k : ℚ) / ((n : ℚ) - 1)

/-- `warp_image(image, flow_u, flow_v)` (`python/lucas_kanade_pyramidal.py`):
output pixel `(y, x)` samples the input bilinearly at
`(y + flow_v[y,x], x + flow_u[y,x])`. -/
def warp_image (image flow_u flow_v : Img) : Img :=
  let height := heightOf image
  let width := widthOf image
  genImg height width fun y x =>
    bilin image ((y : ℚ) + getPix flow_v y x) ((x : ℚ) + getPix flow_u y x)

/-- `upsample_flow(flow_u, flow_v, target_shape)`
(`python/lucas_kanade_pyramidal.py`): bilinear resample of each component
onto the target grid, then magnitude scaling by `target_dim / coarse_dim`
per axis. -/
def upsample_flow (flow_u flow_v : Img) (target_shape : ℕ × ℕ) : Img × Img :=
  let coarse_height := heightOf flow_u
  let coarse_width := widthOf flow_u
  let target_height := target_shape.1
  let target_width := target_shape.2
  let scale_y : ℚ := (target_height : ℚ) / (coarse_height : ℚ)
  let scale_x : ℚ := (target_width : ℚ) / (coarse_width : ℚ)
  let y_target := linspace 0 ((coarse_height : ℚ) - 1) target_height
  let x_target := linspace 0 ((coarse_width : ℚ) - 1) target_width
  (genImg target_height target_width fun i j =>
     bilin flow_u (y_target.getD i 0) (x_target.getD j 0) * scale_x,
   genImg target_height target_width fun i j =>
     bilin flow_v (y_target.getD i 0) (x_target.getD j 0) * scale_y)

/-- One `level > 0` step of the pyramid loop in `build_gaussian_pyramid`
(`python/lucas_kanade_pyramidal.py`): Gaussian blur with
`sigma = 1/scale_factor` (the scipy call modelled as the parameter
`gaussian_blur`), then bilinear resample to
`int(dim * scale_factor)` (Python `int` truncation) per axis. -/
def pyramid_next_level (gaussian_blur : ℚ → Img → Img) (scale_factor : ℚ)
    (current : Img) : Img :=
  let sigma := 1 / scale_factor
  let smoothed := gaussian_blur sigma current
  let height := heightOf smoothed
  let width := widthOf smoothed
  let new_height := (⌊(height : ℚ) * scale_factor⌋).toNat
  let new_width := (⌊(width : ℚ) * scale_factor⌋).toNat
  let y_coords := linspace 0 ((height : ℚ) - 1) new_height
  let x_coords := linspace 0 ((width : ℚ) - 1) new_width
  genImg new_height new_width fun i j =>
    bilin smoothed (y_coords.getD i 0) (x_coords.getD j 0)

/-- The fine-to-coarse sequence of images produced by the loop in
`build_gaussian_pyramid`: the original, then iterated blur-and-downsample. -/
def pyramid_fine_to_coarse (gaussian_blur : ℚ → Img → Img) (scale_factor : ℚ) :
    ℕ → Img → List Img
  | 0, _ => []
  | n + 1, current =>
    current ::
      pyramid_fine_to_coarse gaussian_blur scale_factor n
        (pyramid_next_level gaussian_blur scale_factor current)

/-- `build_gaussian_pyramid(image, num_levels, scale_factor)`
(`python/lucas_kanade_pyramidal.py`): the loop's `pyramid.insert(0, current)`
makes the stored list the reverse of the fine-to-coarse construction order,
so index 0 is coarsest and the last level is the untouched input. -/
def build_gaussian_pyramid (gaussian_blur : ℚ → Img → Img) (image : Img)
    (num_levels : ℕ) (scale_factor : ℚ) : List Img :=
  (pyramid_fine_to_coarse gaussian_blur scale_factor num_levels image).reverse

/-- numpy `+=` between the same-shape flow accumulator and residual in
`lucas_kanade_pyramidal`. -/
def addImg (a b : Img) : Img :=
  genImg (heightOf a) (widthOf a) fun y x => getPix a y x + getPix b y x

/-- The per-level iteration loop of `lucas_kanade_pyramidal`
(`python/lucas_kanade_pyramidal.py`, `for iteration in range(num_iterations)`),
by recursion on the remaining iteration count: warp the current frame by the
accumulated flow, solve for the residual `(du, dv)`, accumulate, and break
once `mean(|du|) < 0.01 and mean(|dv|) < 0.01`. -/
def levelIterate (conv : Img → Img → Img) (img_prev img_curr : Img)
    (window_size : ℕ) : ℕ → Img × Img → Except FlowError (Img × Img)
  | 0, fl => .ok fl
  | n + 1, fl =>
    let img_warped := warp_image img_curr fl.1 fl.2
    match lucas_kanade_single_scale conv img_prev img_warped window_size with
    | .error e => .error e
    | .ok (du, dv) =>
      let fl2 := (addImg fl.1 du, addImg fl.2 dv)
      if meanAbs du < 1 / 100 ∧ meanAbs dv < 1 / 100 then .ok fl2
      else levelIterate conv img_prev img_curr window_size n fl2

/-- Mean of a list of rationals (`np.mean` over a 1-D array). -/
def meanList (l : List ℚ) : ℚ := l.sum / (l.length : ℚ)

/-- numpy boolean-mask selection `a[mask]`: row-major flatten of the
elements whose mask entry is true. -/
def maskSel (a : Img) (mask : List (List Bool)) : List ℚ :=
  ((a.zip mask).map fun rm =>
    (rm.1.zip rm.2).filterMap fun p => if p.2 then some p.1 else none).flatten

/-- `np.clip(q, -1.0, 1.0)`. -/
def clip1 (q : ℚ) : ℚ := max (-1) (min 1 q)

/-- `angular_error(u_pred, v_pred, u_true, v_true, mask)`
(`python/flow_metrics.py`).  The transcendental numpy primitives
`np.sqrt`, `np.arccos`, `np.rad2deg` are external calls modelled as the
parameters `sqrtA`, `acosA`, `rad2degA`; the guard, masking, 3-D lift,
dot product, clipping and averaging are translated directly. -/
def angular_error (sqrtA acosA rad2degA : ℚ → ℚ) (u_pred v_pred : Img)
    (u_true v_true : ℚ) (mask : List (List Bool)) : ℚ :=
  let u_pred_3d := maskSel u_pred mask
  let v_pred_3d := maskSel v_pred mask
  let mag_true := sqrtA (u_true ^ 2 + v_true ^ 2)
  let mag_pred := (u_pred_3d.zip v_pred_3d).map fun p => sqrtA (p.1 ^ 2 + p.2 ^ 2)
  if mag_true < 1 / 1000000 ∧ ∀ m ∈ mag_pred, m < 1 / 1000000 then (0 : ℚ)
  else
    let norm_true := sqrtA (u_true ^ 2 + v_true ^ 2 + 1)
    let degs := (u_pred_3d.zip v_pred_3d).map fun p =>
      let norm_pred := sqrtA (p.1 ^ 2 + p.2 ^ 2 + 1)
      rad2degA (acosA (clip1 ((p.1 * u_true + p.2 * v_true + 1) / (norm_pred * norm_true))))
    meanList degs

/-- Python's built-in `round` (round half to even), as the spec's
"round(dim · scale_factor)" reads; used only to compare the spec's pyramid
shape law against the code's truncation. -/
def pyRound (q : ℚ) : ℤ :=
  let n := ⌊q⌋
  let frac := q - n
  if frac < 1 / 2 then n
  else if 1 / 2 < frac then n + 1
  else if 2 ∣ n then n else n + 1

/-! ### Helper lemmas about the array model -/

theorem getD_map_range {α : Type} (f : ℕ → α) (d : α) (n k : ℕ) (hk : k < n) :
    ((List.range n).map f).getD k d = f k := by
  rw [List.getD_eq_getElem?_getD]
  simp [List.getElem?_map, List.getElem?_range hk]

theorem heightOf_genImg (h w : ℕ) (f : ℕ → ℕ → ℚ) : heightOf (genImg h w f) = h := by
  simp [heightOf, genImg]

theorem widthOf_genImg (h w : ℕ) (f : ℕ → ℕ → ℚ) (hh : 0 < h) :
    widthOf (genImg h w f) = w := by
  unfold widthOf genImg
  obtain ⟨m, rfl⟩ : ∃ m, h = m + 1 := ⟨h - 1, by omega⟩
  simp [List.range_succ_eq_map]

theorem getPix_genImg (h w : ℕ) (f : ℕ → ℕ → ℚ) (y x : ℕ) :
    getPix (genImg h w f) y x = if y < h ∧ x < w then f y x else 0 := by
  unfold getPix genImg
  by_cases hy : y < h
  · rw [getD_map_range _ _ _ _ hy]
    by_cases hx : x < w
    · rw [getD_map_range _ _ _ _ hx]
      simp [hy, hx]
    · have hnone : ((List.range w).map (f y))[x]? = none :=
        List.getElem?_eq_none (by simpa using (by omega : w ≤ x))
      rw [List.getD_eq_getElem?_getD, hnone]
      simp [hy, hx]
  · have hnone : (((List.range h).map fun y => (List.range w).map (f y)))[y]? = none :=
      List.getElem?_eq_none (by simpa using (by omega : h ≤ y))
    rw [List.getD_eq_getElem?_getD, List.getD_eq_getElem?_getD, hnone]
    simp [hy]

theorem Rect_genImg (h w : ℕ) (f : ℕ → ℕ → ℚ) : Rect (genImg h w f) h w := by
  constructor
  · simp [genImg]
  · intro r hr
    simp only [genImg, List.mem_map] at hr
    obtain ⟨y, _, rfl⟩ := hr
    simp

theorem genImg_congr (h w : ℕ) (f g : ℕ → ℕ → ℚ)
    (hfg : ∀ y < h, ∀ x < w, f y x = g y x) : genImg h w f = genImg h w g := by
  unfold genImg
  refine List.map_congr_left fun y hy => ?_
  refine List.map_congr_left fun x hx => ?_
  exact hfg y (List.mem_range.mp hy) x (List.mem_range.mp hx)

theorem widthOf_rect (a : Img) (h w : ℕ) (ha : Rect a h w) (hh : 0 < h) :
    widthOf a = w := by
  obtain ⟨hlen, hrow⟩ := ha
  unfold widthOf
  cases a with
  | nil => simp [heightOf] at hlen; omega
  | cons r rs => exact hrow r (by simp)

theorem getD_slice {α : Type} (l : List α) (d : α) (x0 m i : ℕ) (hi : i < m) :
    ((l.drop x0).take m).getD i d = l.getD (x0 + i) d := by
  rw [List.getD_eq_getElem?_getD, List.getD_eq_getElem?_getD]
  rw [List.getElem?_take, List.getElem?_drop]
  simp [hi]

theorem sum_zipWith_getD {α β : Type} (f : α → β → ℚ) (da : α) (db : β) :
    ∀ (A : List α) (B : List β),
      (List.zipWith f A B).sum =
        ∑ i ∈ Finset.range (min A.length B.length), f (A.getD i da) (B.getD i db) := by
  intro A
  induction A with
  | nil => intro B; simp
  | cons a as ih =>
    intro B
    cases B with
    | nil => simp
    | cons b bs =>
      simp only [List.zipWith, List.sum_cons, ih bs, List.length_cons,
        Nat.succ_min_succ, Finset.sum_range_succ']
      simp [List.getD_cons_succ, List.getD_cons_zero, add_comm]

theorem length_slice_rows {α : Type} (l : List α) (y0 n : ℕ) (h : y0 + n ≤ l.length) :
    ((l.drop y0).take n).length = n := by
  simp [List.length_take, List.length_drop]
  omega

theorem mem_slice_rows {α : Type} {l : List α} {y0 n : ℕ} {r : α}
    (hr : r ∈ (l.drop y0).take n) : r ∈ l :=
  List.mem_of_mem_drop (List.mem_of_mem_take hr)

theorem sum_zipWith_mul_right_zero (a : List ℚ) :
    ∀ b : List ℚ, (∀ q ∈ b, q = 0) → (List.zipWith (· * ·) a b).sum = 0 := by
  induction a with
  | nil => intro b _; simp
  | cons x xs ih =>
    intro b hb
    cases b with
    | nil => simp
    | cons y ys =>
      have hy : y = 0 := hb y (by simp)
      have hys : ∀ q ∈ ys, q = 0 := fun q hq => hb q (by simp [hq])
      simp [hy, ih ys hys]

theorem sum2_mul2_right_zero (A : Img) :
    ∀ B : Img, (∀ r ∈ B, ∀ q ∈ r, q = 0) → sum2 (mul2 A B) = 0 := by
  induction A with
  | nil => intro B _; simp [sum2, mul2]
  | cons ra ras ih =>
    intro B hB
    cases B with
    | nil => simp [sum2, mul2]
    | cons rb rbs =>
      have h1 : ∀ q ∈ rb, q = 0 := hB rb (by simp)
      have h2 : ∀ r ∈ rbs, ∀ q ∈ r, q = 0 := fun r hr => hB r (by simp [hr])
      simp only [sum2, mul2, List.zipWith, List.map_cons, List.sum_cons]
      rw [sum_zipWith_mul_right_zero ra rb h1]
      have := ih rbs h2
      simp only [sum2, mul2] at this
      simp [this]

theorem slice2_all_zero (It : Img) (hIt : ∀ r ∈ It, ∀ q ∈ r, q = 0)
    (y0 y1 x0 x1 : ℕ) : ∀ r ∈ slice2 It y0 y1 x0 x1, ∀ q ∈ r, q = 0 := by
  intro r hr q hq
  unfold slice2 at hr
  obtain ⟨row, hrow, rfl⟩ := List.mem_map.mp hr
  exact hIt row (mem_slice_rows hrow) q (mem_slice_rows hq)

theorem solvePix_zero_It (Ix Iy It : Img) (hIt : ∀ r ∈ It, ∀ q ∈ r, q = 0)
    (ws y x : ℕ) : solvePix Ix Iy It ws y x = (0, 0) := by
  simp only [solvePix]
  rw [sum2_mul2_right_zero _ _ (slice2_all_zero It hIt _ _ _ _),
    sum2_mul2_right_zero _ _ (slice2_all_zero It hIt _ _ _ _)]
  split_ifs <;> simp

theorem genImg_all_zero (h w : ℕ) (f : ℕ → ℕ → ℚ) (hf : ∀ y x, f y x = 0) :
    ∀ r ∈ genImg h w f, ∀ q ∈ r, q = 0 := by
  intro r hr q hq
  simp only [genImg, List.mem_map] at hr
  obtain ⟨y, _, rfl⟩ := hr
  obtain ⟨x, _, rfl⟩ := List.mem_map.mp hq
  exact hf y x

theorem lk_from_gradients_zero_It (Ix Iy It : Img)
    (hIt : ∀ r ∈ It, ∀ q ∈ r, q = 0) (ws : ℕ) : ∀ y x : ℕ,
    getPix (lucas_kanade_from_gradients Ix Iy It ws).1 y x = 0 ∧
    getPix (lucas_kanade_from_gradients Ix Iy It ws).2 y x = 0 := by
  intro y x
  constructor <;>
  · simp only [lucas_kanade_from_gradients, getPix_genImg]
    split_ifs with h1 h2 <;>
      simp [solvePix_zero_It Ix Iy It hIt ws y x]

theorem ewise_self (f : ℚ → ℚ → ℚ) (a : Img) :
    ewise f a a = some (genImg (heightOf a) (widthOf a) fun y x =>
      f (getPix a (if heightOf a = 1 then 0 else y) (if widthOf a = 1 then 0 else x))
        (getPix a (if heightOf a = 1 then 0 else y) (if widthOf a = 1 then 0 else x))) := by
  unfold ewise bcastDim
  simp

/-! ### The claims -/

/-- **C3** (invariants): for every gradient triple and any odd
`window_size`, the solver's output flow is exactly zero at every pixel
within `window_size // 2` of any frame edge, and every non-zero output
pixel has its full `window_size × window_size` window inside the frame. -/
theorem solver_boundary_zero (Ix Iy It : Img) (ws : ℕ) (hodd : Odd ws) :
    (∀ y x : ℕ,
      (y < ws / 2 ∨ heightOf Ix - ws / 2 ≤ y ∨ x < ws / 2 ∨ widthOf Ix - ws / 2 ≤ x) →
      getPix (lucas_kanade_from_gradients Ix Iy It ws).1 y x = 0 ∧
      getPix (lucas_kanade_from_gradients Ix Iy It ws).2 y x = 0) ∧
    (∀ y x : ℕ,
      (getPix (lucas_kanade_from_gradients Ix Iy It ws).1 y x ≠ 0 ∨
       getPix (lucas_kanade_from_gradients Ix Iy It ws).2 y x ≠ 0) →
      ws / 2 ≤ y ∧ y + ws / 2 < heightOf Ix ∧ ws / 2 ≤ x ∧ x + ws / 2 < widthOf Ix) := by
  have key : ∀ y x : ℕ,
      ¬ (ws / 2 ≤ y ∧ y + ws / 2 < heightOf Ix ∧ ws / 2 ≤ x ∧ x + ws / 2 < widthOf Ix) →
      getPix (lucas_kanade_from_gradients Ix Iy It ws).1 y x = 0 ∧
      getPix (lucas_kanade_from_gradients Ix Iy It ws).2 y x = 0 := by
    intro y x hnot
    constructor <;>
    · simp only [lucas_kanade_from_gradients, getPix_genImg]
      split_ifs with h1 h2 <;> first | rfl | (exfalso; exact hnot (by omega))
  constructor
  · intro y x hbd
    exact key y x (by omega)
  · intro y x hnz
    by_contra hnot
    rcases key y x hnot with ⟨h1, h2⟩
    rcases hnz with h | h <;> [exact h h1; exact h h2]

/-- Witness for C3 at a concrete input: a 3×3 all-zero gradient triple
with `window_size = 3`; the corner pixel is a border pixel, so both flow
components vanish there. -/
theorem solver_boundary_zero_witness :
    getPix (lucas_kanade_from_gradients (genImg 3 3 fun _ _ => 0)
      (genImg 3 3 fun _ _ => 0) (genImg 3 3 fun _ _ => 0) 3).1 0 0 = 0 :=
  ((solver_boundary_zero (genImg 3 3 fun _ _ => 0) (genImg 3 3 fun _ _ => 0)
      (genImg 3 3 fun _ _ => 0) 3 ⟨1, by decide⟩).1 0 0 (Or.inl (by decide))).1

/-- **C7** (functional correctness): running the single-scale solver on an
identical frame pair yields `It = 0` everywhere, hence `b = (0, 0)` in
every window, and the returned flow is `(0, 0)` at every pixel regardless
of the determinant branch taken. -/
theorem zero_motion (conv : Img → Img → Img) (F : Img) (ws : ℕ) (hodd : Odd ws) :
    ∃ uv : Img × Img, lucas_kanade_single_scale conv F F ws = .ok uv ∧
      ∀ y x : ℕ, getPix uv.1 y x = 0 ∧ getPix uv.2 y x = 0 := by
  unfold lucas_kanade_single_scale compute_gradients
  rw [ewise_self, ewise_self]
  refine ⟨_, rfl, ?_⟩
  exact lk_from_gradients_zero_It _ _ _ (genImg_all_zero _ _ _ fun y x => sub_self _) ws

/-- Witness for C7: a concrete 2×2 frame against itself with
`window_size = 3` gives zero flow at pixel (0, 0). -/
theorem zero_motion_witness :
    ∃ uv : Img × Img,
      lucas_kanade_single_scale (fun im _ => im) [[1, 2], [3, 4]] [[1, 2], [3, 4]] 3 = .ok uv ∧
      ∀ y x : ℕ, getPix uv.1 y x = 0 ∧ getPix uv.2 y x = 0 :=
  zero_motion (fun im _ => im) [[1, 2], [3, 4]] 3 ⟨1, by decide⟩

/-- **C9** (refinement/equivalence): `compute_gradients` in
`lucas_kanade_core.py` and in `lucas_kanade_reference.py` agree on every
input, and `lucas_kanade_from_gradients` agrees with
`lucas_kanade_window` on every gradient triple and odd window size. -/
theorem implementations_agree :
    (∀ (conv : Img → Img → Img) (fp fc : Img),
        compute_gradients conv fp fc = reference.compute_gradients conv fp fc) ∧
    (∀ (Ix Iy It : Img) (ws : ℕ), Odd ws →
        lucas_kanade_from_gradients Ix Iy It ws =
          reference.lucas_kanade_window Ix Iy It ws) :=
  ⟨fun _ _ _ => rfl, fun _ _ _ _ _ => rfl⟩

/-- Witness for C9 at a concrete gradient triple and window size 3. -/
theorem implementations_agree_witness :
    lucas_kanade_from_gradients [[1, 2], [3, 4]] [[5, 6], [7, 8]] [[1, 0], [0, 1]] 3 =
      reference.lucas_kanade_window [[1, 2], [3, 4]] [[5, 6], [7, 8]] [[1, 0], [0, 1]] 3 :=
  implementations_agree.2 [[1, 2], [3, 4]] [[5, 6], [7, 8]] [[1, 0], [0, 1]] 3 ⟨1, by decide⟩

/-- **C8** (functional correctness): if the ground-truth magnitude is below
`1e-6` and every predicted magnitude inside the mask is below `1e-6`, the
angular-error function returns exactly `0.0` (the degenerate-case guard);
this holds for any model of the transcendental numpy primitives. -/
theorem angular_error_degenerate (sqrtA acosA rad2degA : ℚ → ℚ)
    (u_pred v_pred : Img) (u_true v_true : ℚ) (mask : List (List Bool))
    (h1 : sqrtA (u_true ^ 2 + v_true ^ 2) < 1 / 1000000)
    (h2 : ∀ p ∈ (maskSel u_pred mask).zip (maskSel v_pred mask),
        sqrtA (p.1 ^ 2 + p.2 ^ 2) < 1 / 1000000) :
    angular_error sqrtA acosA rad2degA u_pred v_pred u_true v_true mask = 0 := by
  simp only [angular_error]
  split_ifs with hcond
  · rfl
  · exact absurd ⟨h1, fun m hm => by
      obtain ⟨p, hp, rfl⟩ := List.mem_map.mp hm
      exact h2 p hp⟩ hcond

/-- Witness for C8: ground truth `(0, 0)` and an all-zero predicted flow
(with a model of `np.sqrt` sending `0` to `0`) give AAE exactly `0`. -/
theorem angular_error_degenerate_witness :
    angular_error (fun _ => 0) (fun q => q) (fun q => q)
      [[0]] [[0]] 0 0 [[true]] = 0 :=
  angular_error_degenerate _ _ _ [[0]] [[0]] 0 0 [[true]] (by norm_num)
    (fun p _ => by norm_num)

/-- **C6** (temporal): in the per-level iteration loop, each iteration warps
the current frame by the accumulated flow, computes the residual `(du, dv)`
through the gradient estimator and windowed solver, accumulates
`u += du, v += dv`, and the loop exits early exactly when
`mean(|du|) < 0.01` and `mean(|dv|) < 0.01` — with that iteration's
residual already accumulated — otherwise continuing until the iteration
budget is exhausted. -/
theorem level_iteration_law (conv : Img → Img → Img) (img_prev img_curr : Img)
    (ws n : ℕ) (fl : Img × Img) (du dv : Img)
    (hsolve : lucas_kanade_single_scale conv img_prev
        (warp_image img_curr fl.1 fl.2) ws = .ok (du, dv)) :
    levelIterate conv img_prev img_curr ws 0 fl = .ok fl ∧
    levelIterate conv img_prev img_curr ws (n + 1) fl =
      (if meanAbs du < 1 / 100 ∧ meanAbs dv < 1 / 100 then
         .ok (addImg fl.1 du, addImg fl.2 dv)
       else levelIterate conv img_prev img_curr ws n (addImg fl.1 du, addImg fl.2 dv)) := by
  constructor
  · rfl
  · simp only [levelIterate, hsolve]

unseal Rat.mul Rat.add Rat.inv Rat.sub in
/-- Witness for C6: a 1×1 all-zero level with zero initial flow; the first
iteration's residual is zero, so the loop converges and exits after it. -/
theorem level_iteration_law_witness :
    levelIterate (fun im _ => im) [[0]] [[0]] 1 2 ([[0]], [[0]]) = .ok ([[0]], [[0]]) := by
  have h := (level_iteration_law (fun im _ => im) [[0]] [[0]] 1 1 ([[0]], [[0]])
    [[0]] [[0]] (by rfl)).2
  rw [h, if_pos (by constructor <;> decide)]
  rfl

theorem getD_row_of_rect (c : Img) (h w : ℕ) (hc : Rect c h w) (i : ℕ) (hi : i < h) :
    (c.getD i []).length = w := by
  have hlen : i < c.length := by rw [hc.1]; exact hi
  rw [List.getD_eq_getElem?_getD, List.getElem?_eq_getElem hlen]
  exact hc.2 _ (List.getElem_mem hlen)

theorem sum2_mul2_slice (a b : Img) (h w : ℕ) (ha : Rect a h w) (hb : Rect b h w)
    (y0 x0 n m : ℕ) (hy : y0 + n ≤ h) (hx : x0 + m ≤ w) :
    sum2 (mul2 (slice2 a y0 (y0 + n) x0 (x0 + m)) (slice2 b y0 (y0 + n) x0 (x0 + m))) =
      ∑ dy ∈ Finset.range n, ∑ dx ∈ Finset.range m,
        getPix a (y0 + dy) (x0 + dx) * getPix b (y0 + dy) (x0 + dx) := by
  have hnn : y0 + n - y0 = n := by omega
  have hmm : x0 + m - x0 = m := by omega
  unfold sum2 mul2 slice2
  rw [hnn, hmm, List.map_zipWith, List.zipWith_map,
    sum_zipWith_getD _ ([] : List ℚ) ([] : List ℚ)]
  have hla : ((a.drop y0).take n).length = n :=
    length_slice_rows a y0 n (by rw [ha.1]; omega)
  have hlb : ((b.drop y0).take n).length = n :=
    length_slice_rows b y0 n (by rw [hb.1]; omega)
  rw [hla, hlb, Nat.min_self]
  refine Finset.sum_congr rfl fun dy hdy => ?_
  have hdy' : dy < n := Finset.mem_range.mp hdy
  rw [getD_slice a [] y0 n dy hdy', getD_slice b [] y0 n dy hdy']
  rw [sum_zipWith_getD _ (0 : ℚ) (0 : ℚ)]
  have hra : (((a.getD (y0 + dy) []).drop x0).take m).length = m := by
    refine length_slice_rows _ x0 m ?_
    rw [getD_row_of_rect a h w ha (y0 + dy) (by omega)]
    omega
  have hrb : (((b.getD (y0 + dy) []).drop x0).take m).length = m := by
    refine length_slice_rows _ x0 m ?_
    rw [getD_row_of_rect b h w hb (y0 + dy) (by omega)]
    omega
  rw [hra, hrb, Nat.min_self]
  refine Finset.sum_congr rfl fun dx hdx => ?_
  have hdx' : dx < m := Finset.mem_range.mp hdx
  rw [getD_slice _ 0 x0 m dx hdx', getD_slice _ 0 x0 m dx hdx']
  rfl

theorem solvePix_spec (Ix Iy It : Img) (h w ws : ℕ)
    (hIx : Rect Ix h w) (hIy : Rect Iy h w) (hIt : Rect It h w)
    (k y x : ℕ) (hws : ws = 2 * k + 1)
    (hy1 : k ≤ y) (hy2 : y + k < h) (hx1 : k ≤ x) (hx2 : x + k < w) :
    solvePix Ix Iy It ws y x =
      (let S : Img → Img → ℚ := fun A B =>
        ∑ dy ∈ Finset.range ws, ∑ dx ∈ Finset.range ws,
          getPix A (y - k + dy) (x - k + dx) * getPix B (y - k + dy) (x - k + dx)
      let det := S Ix Ix * S Iy Iy - S Ix Iy * S Ix Iy
      if 1 / 10000 < |det| then
        ((S Iy Iy * -S Ix It - S Ix Iy * -S Iy It) / det,
         (S Ix Ix * -S Iy It - S Ix Iy * -S Ix It) / det)
      else (0, 0)) := by
  have hhalf : ws / 2 = k := by omega
  have he1 : y + ws / 2 + 1 = (y - ws / 2) + ws := by omega
  have he2 : x + ws / 2 + 1 = (x - ws / 2) + ws := by omega
  have hby : (y - ws / 2) + ws ≤ h := by omega
  have hbx : (x - ws / 2) + ws ≤ w := by omega
  simp only [solvePix, he1, he2]
  rw [sum2_mul2_slice Ix Ix h w hIx hIx _ _ _ _ hby hbx,
    sum2_mul2_slice Iy Iy h w hIy hIy _ _ _ _ hby hbx,
    sum2_mul2_slice Ix Iy h w hIx hIy _ _ _ _ hby hbx,
    sum2_mul2_slice Ix It h w hIx hIt _ _ _ _ hby hbx,
    sum2_mul2_slice Iy It h w hIy hIt _ _ _ _ hby hbx]
  simp only [hhalf]

/-- **C1** (functional correctness): at every pixel whose window lies fully
inside the frame, the solver forms the windowed sums
`Sxx = ΣIx², Syy = ΣIy², Sxy = ΣIxIy, Sxt = ΣIxIt, Syt = ΣIyIt` and
`det = Sxx·Syy − Sxy²`; if `|det| ≤ 1e-4` the output there is exactly
`(0, 0)`, otherwise it is Cramer's rule with `b = (−Sxt, −Syt)`:
`u = (Syy·b0 − Sxy·b1)/det`, `v = (Sxx·b1 − Sxy·b0)/det`. -/
theorem solver_pixel_cramer (Ix Iy It : Img) (h w ws y x : ℕ)
    (hIx : Rect Ix h w) (hIy : Rect Iy h w) (hIt : Rect It h w) (hodd : Odd ws)
    (hy1 : ws / 2 ≤ y) (hy2 : y < h - ws / 2) (hx1 : ws / 2 ≤ x) (hx2 : x < w - ws / 2) :
    let half := ws / 2
    let S : Img → Img → ℚ := fun A B =>
      ∑ dy ∈ Finset.range ws, ∑ dx ∈ Finset.range ws,
        getPix A (y - half + dy) (x - half + dx) * getPix B (y - half + dy) (x - half + dx)
    let Sxx := S Ix Ix
    let Syy := S Iy Iy
    let Sxy := S Ix Iy
    let Sxt := S Ix It
    let Syt := S Iy It
    let det := Sxx * Syy - Sxy * Sxy
    let b0 := -Sxt
    let b1 := -Syt
    getPix (lucas_kanade_from_gradients Ix Iy It ws).1 y x =
      (if |det| ≤ 1 / 10000 then 0 else (Syy * b0 - Sxy * b1) / det) ∧
    getPix (lucas_kanade_from_gradients Ix Iy It ws).2 y x =
      (if |det| ≤ 1 / 10000 then 0 else (Sxx * b1 - Sxy * b0) / det) := by
  obtain ⟨k, hws⟩ := hodd
  have hhalf : ws / 2 = k := by omega
  have hh0 : 0 < h := by omega
  have hyh : y < heightOf Ix := by rw [show heightOf Ix = h from hIx.1]; omega
  have hxw : x < widthOf Ix := by rw [widthOf_rect Ix h w hIx hh0]; omega
  have hcond : k ≤ y ∧ y < heightOf Ix - k ∧ k ≤ x ∧ x < widthOf Ix - k := by
    rw [show heightOf Ix = h from hIx.1, widthOf_rect Ix h w hIx hh0]
    refine ⟨by omega, by omega, by omega, by omega⟩
  have hpix := solvePix_spec Ix Iy It h w ws hIx hIy hIt k y x hws
    (by omega) (by omega) (by omega) (by omega)
  constructor <;>
  · simp only [lucas_kanade_from_gradients, getPix_genImg, hhalf]
    rw [if_pos ⟨hyh, hxw⟩, if_pos hcond, hpix]
    simp only [apply_ite]
    rcases le_or_lt |(∑ dy ∈ Finset.range ws, ∑ dx ∈ Finset.range ws,
          getPix Ix (y - k + dy) (x - k + dx) * getPix Ix (y - k + dy) (x - k + dx)) *
        (∑ dy ∈ Finset.range ws, ∑ dx ∈ Finset.range ws,
          getPix Iy (y - k + dy) (x - k + dx) * getPix Iy (y - k + dy) (x - k + dx)) -
        (∑ dy ∈ Finset.range ws, ∑ dx ∈ Finset.range ws,
          getPix Ix (y - k + dy) (x - k + dx) * getPix Iy (y - k + dy) (x - k + dx)) *
        (∑ dy ∈ Finset.range ws, ∑ dx ∈ Finset.range ws,
          getPix Ix (y - k + dy) (x - k + dx) * getPix Iy (y - k + dy) (x - k + dx))|
        (1 / 10000 : ℚ) with hle | hlt
    · rw [if_neg (not_lt.mpr hle), if_pos hle]
    · rw [if_pos hlt, if_neg (not_le.mpr hlt)]

unseal Rat.mul Rat.add Rat.inv Rat.sub in
/-- Witness for C1: a concrete 3×3 gradient triple with `window_size = 3`;
at the centre pixel the determinant is zero, so the first branch applies and
the output is `(0, 0)` there. -/
theorem solver_pixel_cramer_witness :
    getPix (lucas_kanade_from_gradients [[1, 1, 1], [1, 1, 1], [1, 1, 1]]
        [[1, 1, 1], [1, 1, 1], [1, 1, 1]] [[0, 0, 0], [0, 0, 0], [0, 0, 0]] 3).1 1 1 = 0 := by
  have hr : Rect ([[1, 1, 1], [1, 1, 1], [1, 1, 1]] : Img) 3 3 := by
    constructor
    · rfl
    · intro r hr
      simp only [List.mem_cons, List.not_mem_nil, or_false] at hr
      rcases hr with rfl | rfl | rfl <;> rfl
  have hr0 : Rect ([[0, 0, 0], [0, 0, 0], [0, 0, 0]] : Img) 3 3 := by
    constructor
    · rfl
    · intro r hr
      simp only [List.mem_cons, List.not_mem_nil, or_false] at hr
      rcases hr with rfl | rfl | rfl <;> rfl
  have h := (solver_pixel_cramer [[1, 1, 1], [1, 1, 1], [1, 1, 1]]
    [[1, 1, 1], [1, 1, 1], [1, 1, 1]] [[0, 0, 0], [0, 0, 0], [0, 0, 0]] 3 3 3 1 1
    hr hr hr0 ⟨1, by decide⟩ (by decide) (by decide) (by decide) (by decide)).1
  rw [h]
  norm_num [Finset.sum_range_succ, getPix]

/-- **C10** (safety): for every gradient triple and odd `window_size`,
every window slice the solver takes at an in-loop pixel is a full
`window_size × window_size` block (no access leaves the array), the output
flow fields always have the input's shape, and when the frame is smaller
than the window in either axis the solver returns all-zero fields of that
shape, without error. -/
theorem solver_total_and_bounded (Ix Iy It : Img) (ws : ℕ) (hodd : Odd ws) :
    (∀ h w : ℕ, Rect Ix h w →
      ∀ y x : ℕ, ws / 2 ≤ y → y < h - ws / 2 → ws / 2 ≤ x → x < w - ws / 2 →
        (slice2 Ix (y - ws / 2) (y + ws / 2 + 1) (x - ws / 2) (x + ws / 2 + 1)).length = ws ∧
        ∀ r ∈ slice2 Ix (y - ws / 2) (y + ws / 2 + 1) (x - ws / 2) (x + ws / 2 + 1),
          r.length = ws) ∧
    Rect (lucas_kanade_from_gradients Ix Iy It ws).1 (heightOf Ix) (widthOf Ix) ∧
    Rect (lucas_kanade_from_gradients Ix Iy It ws).2 (heightOf Ix) (widthOf Ix) ∧
    ((heightOf Ix < ws ∨ widthOf Ix < ws) →
      lucas_kanade_from_gradients Ix Iy It ws =
        (genImg (heightOf Ix) (widthOf Ix) fun _ _ => 0,
         genImg (heightOf Ix) (widthOf Ix) fun _ _ => 0)) := by
  obtain ⟨k, hws⟩ := hodd
  refine ⟨?_, ?_, ?_, ?_⟩
  · intro h w hr y x hy1 hy2 hx1 hx2
    constructor
    · unfold slice2
      rw [List.length_map, List.length_take, List.length_drop, hr.1]
      omega
    · intro r hrm
      unfold slice2 at hrm
      obtain ⟨row, hrow, rfl⟩ := List.mem_map.mp hrm
      have hrw : row.length = w := hr.2 row (mem_slice_rows hrow)
      rw [List.length_take, List.length_drop, hrw]
      omega
  · exact Rect_genImg _ _ _
  · exact Rect_genImg _ _ _
  · intro hdeg
    have hnone : ∀ y x : ℕ, ¬ (ws / 2 ≤ y ∧ y < heightOf Ix - ws / 2 ∧
        ws / 2 ≤ x ∧ x < widthOf Ix - ws / 2) := by
      intro y x hc
      omega
    unfold lucas_kanade_from_gradients
    refine Prod.ext ?_ ?_ <;>
    · refine genImg_congr _ _ _ _ fun y hy x hx => ?_
      rw [if_neg (hnone y x)]

/-- Witness for C10: a 2×2 gradient triple with `window_size = 3` (frame
smaller than the window): the solver returns all-zero 2×2 fields. -/
theorem solver_total_and_bounded_witness :
    lucas_kanade_from_gradients [[1, 2], [3, 4]] [[5, 6], [7, 8]] [[1, 0], [0, 1]] 3 =
      (genImg 2 2 fun _ _ => 0, genImg 2 2 fun _ _ => 0) :=
  (solver_total_and_bounded [[1, 2], [3, 4]] [[5, 6], [7, 8]] [[1, 0], [0, 1]] 3
    ⟨1, by decide⟩).2.2.2 (Or.inl (by decide))

/-- Counterexample to **C4** as stated: the frames `1×3` and `2×3` disagree
in dimensions, yet `compute_gradients` succeeds — numpy broadcasting
stretches the size-1 axis instead of raising. -/
theorem compute_gradients_mismatch_succeeds :
    (heightOf ([[0, 0, 0]] : Img), widthOf ([[0, 0, 0]] : Img)) ≠
      (heightOf ([[0, 0, 0], [0, 0, 0]] : Img), widthOf ([[0, 0, 0], [0, 0, 0]] : Img)) ∧
    (compute_gradients (fun im _ => im) [[0, 0, 0]]
        [[0, 0, 0], [0, 0, 0]]).isOk = true := by
  exact ⟨by decide, rfl⟩

/-- **C4** (amended, error handling): the gradient estimator has no explicit
shape check; it fails — with numpy's broadcasting error, the spec's
`ShapeMismatch` — exactly when the two frames' shapes are not
broadcast-compatible (per axis: equal, or one of them `1`), and it always
succeeds on same-shape inputs, with no other error condition. -/
theorem compute_gradients_error_condition (conv : Img → Img → Img) (fp fc : Img) :
    ((compute_gradients conv fp fc).isOk = true ↔
      (bcastDim (heightOf fp) (heightOf fc)).isSome = true ∧
      (bcastDim (widthOf fp) (widthOf fc)).isSome = true) ∧
    (heightOf fp = heightOf fc → widthOf fp = widthOf fc →
      (compute_gradients conv fp fc).isOk = true) := by
  have hmain : (compute_gradients conv fp fc).isOk = true ↔
      (bcastDim (heightOf fp) (heightOf fc)).isSome = true ∧
      (bcastDim (widthOf fp) (widthOf fc)).isSome = true := by
    unfold compute_gradients ewise
    rcases hH : bcastDim (heightOf fp) (heightOf fc) with _ | hv
    · simp [hH, Except.isOk, Except.toBool]
    · rcases hW : bcastDim (widthOf fp) (widthOf fc) with _ | wv
      · simp [hH, hW, Except.isOk, Except.toBool]
      · simp [hH, hW, Except.isOk, Except.toBool]
  refine ⟨hmain, fun h1 h2 => hmain.mpr ⟨?_, ?_⟩⟩
  · rw [h1]; simp [bcastDim]
  · rw [h2]; simp [bcastDim]

/-- Witness for C4 (amended): same-shape `2×2` frames succeed. -/
theorem compute_gradients_error_condition_witness :
    (compute_gradients (fun im _ => im) [[1, 2], [3, 4]] [[5, 6], [7, 8]]).isOk = true :=
  (compute_gradients_error_condition (fun im _ => im) [[1, 2], [3, 4]]
    [[5, 6], [7, 8]]).2 rfl rfl

theorem getPixZ_const (a : Img) (h w : ℕ) (c : ℚ) (hc : ∀ y < h, ∀ x < w, getPix a y x = c)
    (y x : ℤ) (hy0 : 0 ≤ y) (hy1 : y < (h : ℤ)) (hx0 : 0 ≤ x) (hx1 : x < (w : ℤ)) :
    getPixZ a y x = c := by
  unfold getPixZ
  rw [if_pos ⟨hy0, hx0⟩]
  exact hc y.toNat (by omega) x.toNat (by omega)

theorem bilin_const (a : Img) (h w : ℕ) (c : ℚ)
    (hc : ∀ y < h, ∀ x < w, getPix a y x = c) (hh : 1 ≤ h) (hw : 1 ≤ w)
    (ty tx : ℚ) (hty0 : 0 ≤ ty) (hty1 : ty ≤ (h : ℚ) - 1)
    (htx0 : 0 ≤ tx) (htx1 : tx ≤ (w : ℚ) - 1) :
    bilin a ty tx = c := by
  have hy0 : (0 : ℤ) ≤ ⌊ty⌋ := Int.floor_nonneg.mpr hty0
  have hx0 : (0 : ℤ) ≤ ⌊tx⌋ := Int.floor_nonneg.mpr htx0
  have hcast_h : ((h : ℚ) - 1) = (((h : ℤ) - 1 : ℤ) : ℚ) := by push_cast; ring
  have hcast_w : ((w : ℚ) - 1) = (((w : ℤ) - 1 : ℤ) : ℚ) := by push_cast; ring
  have hy1 : ⌊ty⌋ ≤ (h : ℤ) - 1 := by
    have h1 : ⌊ty⌋ ≤ ⌊(h : ℚ) - 1⌋ := Int.floor_le_floor hty1
    rwa [hcast_h, Int.floor_intCast] at h1
  have hx1 : ⌊tx⌋ ≤ (w : ℤ) - 1 := by
    have h1 : ⌊tx⌋ ≤ ⌊(w : ℚ) - 1⌋ := Int.floor_le_floor htx1
    rwa [hcast_w, Int.floor_intCast] at h1
  have hcase_x : ⌊tx⌋ + 1 ≤ (w : ℤ) - 1 ∨ tx - ⌊tx⌋ = 0 := by
    rcases eq_or_lt_of_le hx1 with heq | hlt
    · right
      have hle : tx ≤ (⌊tx⌋ : ℚ) := by rw [heq, ← hcast_w]; exact htx1
      have hge : (⌊tx⌋ : ℚ) ≤ tx := Int.floor_le tx
      linarith
    · left; omega
  have hcase_y : ⌊ty⌋ + 1 ≤ (h : ℤ) - 1 ∨ ty - ⌊ty⌋ = 0 := by
    rcases eq_or_lt_of_le hy1 with heq | hlt
    · right
      have hle : ty ≤ (⌊ty⌋ : ℚ) := by rw [heq, ← hcast_h]; exact hty1
      have hge : (⌊ty⌋ : ℚ) ≤ ty := Int.floor_le ty
      linarith
    · left; omega
  have hinner : ∀ r : ℤ, 0 ≤ r → r < (h : ℤ) →
      (1 - (tx - (⌊tx⌋ : ℚ))) * getPixZ a r ⌊tx⌋ +
        (tx - (⌊tx⌋ : ℚ)) * getPixZ a r (⌊tx⌋ + 1) = c := by
    intro r hr0 hr1
    have hbase : getPixZ a r ⌊tx⌋ = c := getPixZ_const a h w c hc r ⌊tx⌋ hr0 hr1 hx0 (by omega)
    rcases hcase_x with hlt | hfx
    · have hnext : getPixZ a r (⌊tx⌋ + 1) = c :=
        getPixZ_const a h w c hc r (⌊tx⌋ + 1) hr0 hr1 (by omega) (by omega)
      rw [hbase, hnext]; ring
    · rw [hfx, hbase]; ring
  show (1 - (ty - (⌊ty⌋ : ℚ))) * ((1 - (tx - (⌊tx⌋ : ℚ))) * getPixZ a ⌊ty⌋ ⌊tx⌋ +
      (tx - (⌊tx⌋ : ℚ)) * getPixZ a ⌊ty⌋ (⌊tx⌋ + 1)) +
    (ty - (⌊ty⌋ : ℚ)) * ((1 - (tx - (⌊tx⌋ : ℚ))) * getPixZ a (⌊ty⌋ + 1) ⌊tx⌋ +
      (tx - (⌊tx⌋ : ℚ)) * getPixZ a (⌊ty⌋ + 1) (⌊tx⌋ + 1)) = c
  rcases hcase_y with hlt | hfy
  · rw [hinner ⌊ty⌋ hy0 (by omega), hinner (⌊ty⌋ + 1) (by omega) (by omega)]
    ring
  · rw [hfy, hinner ⌊ty⌋ hy0 (by omega)]
    ring

theorem linspace_getD (a b : ℚ) (n k : ℕ) (hk : k < n) :
    (linspace a b n).getD k 0 = a + (b - a) * k / ((n : ℚ) - 1) := by
  unfold linspace
  exact getD_map_range _ _ _ _ hk

/-- **C5** (algebraic/relational): upsampling a constant flow field
`(u0, v0)` of shape `(h, w)` to `(2h, 2w)` — bilinear interpolation of `u`
and `v` independently, then scaling by `target_dim / coarse_dim` per axis —
yields the uniform field `(2·u0, 2·v0)` at every pixel. -/
theorem upsample_const_law (flow_u flow_v : Img) (h w : ℕ) (u0 v0 : ℚ)
    (hu : Rect flow_u h w) (hv : Rect flow_v h w)
    (hcu : ∀ y < h, ∀ x < w, getPix flow_u y x = u0)
    (hcv : ∀ y < h, ∀ x < w, getPix flow_v y x = v0)
    (hh : 1 ≤ h) (hw : 1 ≤ w) :
    ∀ i < 2 * h, ∀ j < 2 * w,
      getPix (upsample_flow flow_u flow_v (2 * h, 2 * w)).1 i j = 2 * u0 ∧
      getPix (upsample_flow flow_u flow_v (2 * h, 2 * w)).2 i j = 2 * v0 := by
  intro i hi j hj
  have hhu : heightOf flow_u = h := hu.1
  have hwu : widthOf flow_u = w := widthOf_rect _ _ _ hu (by omega)
  have hdh : (0 : ℚ) < (2 * h : ℕ) - 1 := by
    have : (2 : ℚ) ≤ ((2 * h : ℕ) : ℚ) := by exact_mod_cast (by omega : 2 ≤ 2 * h)
    linarith
  have hdw : (0 : ℚ) < (2 * w : ℕ) - 1 := by
    have : (2 : ℚ) ≤ ((2 * w : ℕ) : ℚ) := by exact_mod_cast (by omega : 2 ≤ 2 * w)
    linarith
  have hyb : ∀ d k : ℕ, 1 ≤ d → k < 2 * d →
      0 ≤ (0 : ℚ) + ((d : ℚ) - 1 - 0) * k / ((2 * d : ℕ) - 1) ∧
      (0 : ℚ) + ((d : ℚ) - 1 - 0) * k / ((2 * d : ℕ) - 1) ≤ (d : ℚ) - 1 := by
    intro d k hd hk
    have hdd : (0 : ℚ) < (2 * d : ℕ) - 1 := by
      have : (2 : ℚ) ≤ ((2 * d : ℕ) : ℚ) := by exact_mod_cast (by omega : 2 ≤ 2 * d)
      linarith
    have hd1 : (0 : ℚ) ≤ (d : ℚ) - 1 := by
      have : (1 : ℚ) ≤ (d : ℚ) := by exact_mod_cast hd
      linarith
    have hk1 : (k : ℚ) ≤ ((2 * d : ℕ) : ℚ) - 1 := by
      have : (k : ℚ) + 1 ≤ ((2 * d : ℕ) : ℚ) := by exact_mod_cast (by omega : k + 1 ≤ 2 * d)
      linarith
    constructor
    · rw [zero_add, sub_zero]
      exact div_nonneg (mul_nonneg hd1 (Nat.cast_nonneg k)) (le_of_lt hdd)
    · rw [zero_add, sub_zero, div_le_iff₀ hdd]
      exact mul_le_mul_of_nonneg_left (by linarith) hd1
  have hyi := hyb h i hh hi
  have hxj := hyb w j hw hj
  have hscale_x : ((2 * w : ℕ) : ℚ) / ((w : ℕ) : ℚ) = 2 := by
    have hw0 : ((w : ℕ) : ℚ) ≠ 0 := by
      exact_mod_cast (by omega : (w : ℕ) ≠ 0)
    push_cast
    rw [mul_div_assoc, div_self hw0, mul_one]
  have hscale_y : ((2 * h : ℕ) : ℚ) / ((h : ℕ) : ℚ) = 2 := by
    have hh0 : ((h : ℕ) : ℚ) ≠ 0 := by
      exact_mod_cast (by omega : (h : ℕ) ≠ 0)
    push_cast
    rw [mul_div_assoc, div_self hh0, mul_one]
  constructor
  · simp only [upsample_flow, getPix_genImg, hhu, hwu]
    rw [if_pos ⟨hi, hj⟩, linspace_getD _ _ _ _ hi, linspace_getD _ _ _ _ hj,
      bilin_const flow_u h w u0 hcu hh hw _ _ hyi.1 hyi.2 hxj.1 hxj.2, hscale_x]
    ring
  · simp only [upsample_flow, getPix_genImg, hhu, hwu]
    rw [if_pos ⟨hi, hj⟩, linspace_getD _ _ _ _ hi, linspace_getD _ _ _ _ hj,
      bilin_const flow_v h w v0 hcv hh hw _ _ hyi.1 hyi.2 hxj.1 hxj.2, hscale_y]
    ring

/-- Witness for C5: the constant 1×1 flow `(1, 2)` upsampled to `2×2` has
value `(2, 4)` at pixel `(0, 0)`. -/
theorem upsample_const_law_witness :
    getPix (upsample_flow [[1]] [[2]] (2 * 1, 2 * 1)).1 0 0 = 2 * 1 ∧
    getPix (upsample_flow [[1]] [[2]] (2 * 1, 2 * 1)).2 0 0 = 2 * 2 :=
  upsample_const_law [[1]] [[2]] 1 1 1 2 ⟨rfl, by decide⟩ ⟨rfl, by decide⟩
    (by decide) (by decide) (by omega) (by omega) 0 (by omega) 0 (by omega)

/-- The value the pyramid loop's `current` variable holds after `k`
downsampling steps: the `k`-fold iterate of `pyramid_next_level`. -/
def pyrIter (gaussian_blur : ℚ → Img → Img) (scale_factor : ℚ) : ℕ → Img → Img
  | 0, im => im
  | k + 1, im =>
    pyrIter gaussian_blur scale_factor k
      (pyramid_next_level gaussian_blur scale_factor im)

theorem pyramid_fine_to_coarse_eq (blur : ℚ → Img → Img) (sf : ℚ) :
    ∀ (n : ℕ) (im : Img), pyramid_fine_to_coarse blur sf n im =
      (List.range n).map fun k => pyrIter blur sf k im := by
  intro n
  induction n with
  | zero => intro im; simp [pyramid_fine_to_coarse]
  | succ m ih =>
    intro im
    rw [pyramid_fine_to_coarse, ih, List.range_succ_eq_map, List.map_cons, List.map_map]
    refine congrArg₂ List.cons rfl ?_
    refine List.map_congr_left fun k _ => ?_
    simp [Function.comp, pyrIter]

theorem floor_half_toNat (n : ℕ) : (⌊(n : ℚ) * (1 / 2)⌋).toNat = n / 2 := by
  have harg : ((n : ℚ) * (1 / 2)) = ((n : ℕ) : ℚ) / ((2 : ℕ) : ℚ) := by push_cast; ring
  rw [harg, Rat.floor_natCast_div_natCast]
  omega

theorem pyramid_next_level_shape (blur : ℚ → Img → Img)
    (hblur : ∀ s im, heightOf (blur s im) = heightOf im ∧
        widthOf (blur s im) = widthOf im) (im : Img) :
    heightOf (pyramid_next_level blur (1 / 2) im) = heightOf im / 2 ∧
    (1 ≤ heightOf im / 2 →
      widthOf (pyramid_next_level blur (1 / 2) im) = widthOf im / 2) := by
  unfold pyramid_next_level
  rw [heightOf_genImg, (hblur (1 / (1 / 2)) im).1, floor_half_toNat]
  refine ⟨rfl, fun hpos => ?_⟩
  rw [widthOf_genImg _ _ _ (by rw [(hblur (1 / (1 / 2)) im).1, floor_half_toNat]; omega),
    (hblur (1 / (1 / 2)) im).2, floor_half_toNat]

theorem pyrIter_shape (blur : ℚ → Img → Img)
    (hblur : ∀ s im, heightOf (blur s im) = heightOf im ∧
        widthOf (blur s im) = widthOf im) :
    ∀ (k : ℕ) (im : Img) (h w : ℕ), heightOf im = h → widthOf im = w →
      1 ≤ h / 2 ^ k →
      heightOf (pyrIter blur (1 / 2) k im) = h / 2 ^ k ∧
      widthOf (pyrIter blur (1 / 2) k im) = w / 2 ^ k := by
  intro k
  induction k with
  | zero => intro im h w hh hw _; simpa [pyrIter] using ⟨hh, hw⟩
  | succ m ih =>
    intro im h w hh hw hbig
    have hstep := pyramid_next_level_shape blur hblur im
    have hle : 1 ≤ h / 2 := by
      have h1 : h / 2 ^ (m + 1) ≤ h / 2 := by
        refine Nat.div_le_div_left ?_ (by omega)
        exact Nat.le_of_dvd (by positivity) ⟨2 ^ m, by ring⟩
      omega
    have hnh : heightOf (pyramid_next_level blur (1 / 2) im) = h / 2 := by
      rw [hstep.1, hh]
    have hnw : widthOf (pyramid_next_level blur (1 / 2) im) = w / 2 := by
      rw [hstep.2 (by rw [hh]; omega), hw]
    have hdd : h / 2 / 2 ^ m = h / 2 ^ (m + 1) := by
      rw [Nat.div_div_eq_div_mul, pow_succ, mul_comm (2 ^ m) 2]
    have hdw : w / 2 / 2 ^ m = w / 2 ^ (m + 1) := by
      rw [Nat.div_div_eq_div_mul, pow_succ, mul_comm (2 ^ m) 2]
    have := ih (pyramid_next_level blur (1 / 2) im) (h / 2) (w / 2) hnh hnw
      (by rw [hdd]; exact hbig)
    rw [hdd, hdw] at this
    simpa [pyrIter] using this

theorem getD_reverse {α : Type} (l : List α) (d : α) (i : ℕ) (hi : i < l.length) :
    l.reverse.getD i d = l.getD (l.length - 1 - i) d := by
  rw [List.getD_eq_getElem?_getD, List.getD_eq_getElem?_getD,
    List.getElem?_eq_getElem (by simpa using hi),
    List.getElem?_eq_getElem (by omega)]
  simp [List.getElem_reverse]

theorem build_pyramid_getD (blur : ℚ → Img → Img) (sf : ℚ) (im : Img)
    (n i : ℕ) (hi : i < n) :
    (build_gaussian_pyramid blur im n sf).getD i [] = pyrIter blur sf (n - 1 - i) im := by
  unfold build_gaussian_pyramid
  rw [getD_reverse _ _ _ (by
      rw [pyramid_fine_to_coarse_eq]; simpa using hi)]
  rw [pyramid_fine_to_coarse_eq]
  rw [show ((List.range n).map fun k => pyrIter blur sf k im).length = n by simp]
  exact getD_map_range _ _ _ _ (by omega)

/-- **C2** (amended, functional correctness): with `scale_factor = 0.5` the
Gaussian pyramid has exactly `num_levels` levels; level `i`'s dimensions
equal the `(num_levels−1−i)`-fold iterated truncation
`dim ↦ int(dim · 0.5)`, i.e. `⌊original_dim / 2^(num_levels−1−i)⌋` — Python
`int` truncation, not the spec's `round` — and level `num_levels − 1` is the
original input itself, dimensions and content.  Stated over any
shape-preserving model of the external Gaussian blur, for inputs whose
height stays ≥ 1 at every level (a list-of-rows model has no width for a
zero-row image). -/
theorem pyramid_shape_law (gaussian_blur : ℚ → Img → Img)
    (hblur : ∀ s im, heightOf (gaussian_blur s im) = heightOf im ∧
        widthOf (gaussian_blur s im) = widthOf im)
    (image : Img) (h w N : ℕ) (hh : heightOf image = h) (hw : widthOf image = w)
    (hN : 1 ≤ N) (hbig : 1 ≤ h / 2 ^ (N - 1)) :
    (build_gaussian_pyramid gaussian_blur image N (1 / 2)).length = N ∧
    (∀ i < N,
      heightOf ((build_gaussian_pyramid gaussian_blur image N (1 / 2)).getD i []) =
        h / 2 ^ (N - 1 - i) ∧
      widthOf ((build_gaussian_pyramid gaussian_blur image N (1 / 2)).getD i []) =
        w / 2 ^ (N - 1 - i)) ∧
    (build_gaussian_pyramid gaussian_blur image N (1 / 2)).getD (N - 1) [] = image := by
  refine ⟨?_, ?_, ?_⟩
  · unfold build_gaussian_pyramid
    rw [List.length_reverse, pyramid_fine_to_coarse_eq]
    simp
  · intro i hi
    rw [build_pyramid_getD _ _ _ _ _ hi]
    refine pyrIter_shape gaussian_blur hblur (N - 1 - i) image h w hh hw ?_
    have hmono : h / 2 ^ (N - 1) ≤ h / 2 ^ (N - 1 - i) := by
      refine Nat.div_le_div_left ?_ (by positivity)
      exact Nat.pow_le_pow_right (by omega) (by omega)
    omega
  · rw [build_pyramid_getD _ _ _ _ _ (by omega : N - 1 < N)]
    simp [pyrIter]

/-- Witness for C2 (amended): a 4×4 image, 2 levels, identity blur — level 0
measures `4/2 = 2` in each axis. -/
theorem pyramid_shape_law_witness :
    heightOf ((build_gaussian_pyramid (fun _ im => im)
        (genImg 4 4 fun _ _ => 0) 2 (1 / 2)).getD 0 []) = 4 / 2 ^ (2 - 1 - 0) ∧
    widthOf ((build_gaussian_pyramid (fun _ im => im)
        (genImg 4 4 fun _ _ => 0) 2 (1 / 2)).getD 0 []) = 4 / 2 ^ (2 - 1 - 0) :=
  (pyramid_shape_law (fun _ im => im) (fun _ _ => ⟨rfl, rfl⟩)
    (genImg 4 4 fun _ _ => 0) 4 4 2 (heightOf_genImg 4 4 _)
    (widthOf_genImg 4 4 _ (by omega)) (by omega) (by omega)).2.1 0 (by omega)

unseal Rat.mul Rat.add Rat.inv Rat.sub in
/-- Counterexample to **C2** as stated: a 7×7 image with `num_levels = 2`.
The code resamples level 0 to `int(7 · 0.5) = 3` rows, while the claim's
`round(7 · 0.5^(2−1−0)) = round(3.5) = 4` (Python rounds half to even).
So level 0's dimension is not `round(original_dim · 0.5^(num_levels−1−i))`. -/
theorem pyramid_round_counterexample :
    heightOf ((build_gaussian_pyramid (fun _ im => im)
        (genImg 7 7 fun _ _ => 0) 2 (1 / 2)).getD 0 []) = 3 ∧
    pyRound ((7 : ℚ) * (1 / 2) ^ (2 - 1 - 0 : ℕ)) = 4 ∧
    ¬ ((heightOf ((build_gaussian_pyramid (fun _ im => im)
        (genImg 7 7 fun _ _ => 0) 2 (1 / 2)).getD 0 []) : ℤ) =
      pyRound ((7 : ℚ) * (1 / 2) ^ (2 - 1 - 0 : ℕ))) := by
  have harg : ((7 : ℚ) * (1 / 2) ^ (2 - 1 - 0 : ℕ)) = ((7 : ℕ) : ℚ) / ((2 : ℕ) : ℚ) := by
    push_cast; ring
  have hfl : ⌊((7 : ℕ) : ℚ) / ((2 : ℕ) : ℚ)⌋ = 3 := by
    rw [Rat.floor_natCast_div_natCast]; decide
  have hpr : pyRound ((7 : ℚ) * (1 / 2) ^ (2 - 1 - 0 : ℕ)) = 4 := by
    rw [harg]
    simp only [pyRound, hfl]
    norm_num
  have hlvl : heightOf ((build_gaussian_pyramid (fun _ im => im)
      (genImg 7 7 fun _ _ => 0) 2 (1 / 2)).getD 0 []) = 3 := by
    rw [build_pyramid_getD _ _ _ _ _ (by omega : 0 < 2)]
    show heightOf (pyrIter (fun _ im => im) (1 / 2) 1 (genImg 7 7 fun _ _ => 0)) = 3
    simp only [pyrIter]
    rw [(pyramid_next_level_shape (fun _ im => im) (fun _ _ => ⟨rfl, rfl⟩) _).1,
      heightOf_genImg]
  exact ⟨hlvl, hpr, by rw [hlvl, hpr]; decide⟩

end OptFlow
